import Mathlib

/-!
# Shallow embedding of the `tz` timezone-conversion core (src/src/lib.rs)

This file embeds, in Lean, the core functions of the `tz` Rust crate:

* `parse_tz` — timezone-name resolution against a catalog of canonical
  identifiers (the Rust code resolves against `chrono_tz::TZ_VARIANTS`; the
  catalog is external static data, so it is a parameter here and a fixture
  catalog of real identifiers, in real enumeration order, instantiates it);
* `parse_datetime_in_tz` / `parse_short_time` — datetime-string parsing.
  The Rust code reads the current local date with `Local::now()` inside the
  time-only and short-time branches; that clock read is reified as the
  explicit `today : Date` argument of the embedding;
* `convert` — re-expression of an instant in another timezone.

Strings are modelled as `List Char`.  `str::to_lowercase` is modelled by its
ASCII case mapping (every string the claims touch is ASCII); `regex` matching
of the four anchored patterns in the source is modelled by deterministic
scanners proved-equivalent by hand to the leftmost-first semantics of the
`regex` crate on those patterns; `chrono`'s `Tz::datetime_from_str` with
format `"%Y-%m-%d %H:%M"` is modelled by `parseFormat` (greedy bounded digit
fields, full-input consumption, calendar validation) followed by
local-datetime resolution, which succeeds only when exactly one UTC offset of
the zone realises the requested wall-clock time.  Rust `panic!`/`unwrap`
failures are modelled by `Exec.crash`; integers are `Nat`/`Int` with explicit
bounds for `usize`/`i32` parsing.
-/

/-- ASCII digit test, mirroring the `regex` crate's `\d` on ASCII input. -/
def isDigit (c : Char) : Bool :=
  decide (48 ≤ c.toNat ∧ c.toNat ≤ 57)

/-- The whitespace characters matched by the `regex` crate's `\s`
(Unicode White_Space). -/
def wsChars : List Char :=
  [Char.ofNat 9, Char.ofNat 10, Char.ofNat 11, Char.ofNat 12, Char.ofNat 13,
   ' ', Char.ofNat 133, Char.ofNat 160, Char.ofNat 5760, Char.ofNat 8192,
   Char.ofNat 8193, Char.ofNat 8194, Char.ofNat 8195, Char.ofNat 8196,
   Char.ofNat 8197, Char.ofNat 8198, Char.ofNat 8199, Char.ofNat 8200,
   Char.ofNat 8201, Char.ofNat 8202, Char.ofNat 8232, Char.ofNat 8233,
   Char.ofNat 8239, Char.ofNat 8287, Char.ofNat 12288]

/-- Whitespace test for the `\s?` item of the short-time pattern. -/
def isWs (c : Char) : Bool :=
  decide (c ∈ wsChars)

/-- One character of Rust's `str::to_lowercase`, restricted to its ASCII
case mapping (`'A'..='Z'` map to `'a'..='z'`; canonical timezone identifiers
and the datetime strings of the claims are ASCII). -/
def lowerChar (c : Char) : Char :=
  if 65 ≤ c.toNat ∧ c.toNat ≤ 90 then Char.ofNat (c.toNat + 32) else c

/-- Rust's `str::to_lowercase` on a whole string. -/
def lowerStr (s : List Char) : List Char :=
  s.map lowerChar

/-- Rust's `str::replace("_", " ")`: on a one-character pattern this is the
character-wise replacement. -/
def replUnd (s : List Char) : List Char :=
  s.map (fun c => if c = '_' then ' ' else c)

/-- Rust's `str::contains(&str)`: substring containment (the empty needle is
contained in every string). -/
def containsSub (needle hay : List Char) : Bool :=
  hay.tails.any (fun t => needle.isPrefixOf t)

/-- The normalized form of a catalog name used by the fuzzy branch of
`parse_tz`: `variant.name().to_lowercase().replace("_", " ")`. -/
def normName (v : List Char) : List Char :=
  replUnd (lowerStr v)

/-- Embedding of `parse_tz` (src/src/lib.rs:13-31).  `Tz::from_str` succeeds
exactly on a canonical identifier, written case-sensitively, and returns that
identifier; otherwise the raw string is lower-cased and the first catalog
entry whose normalized name contains it as a substring is returned.  The
catalog stands for `chrono_tz::TZ_VARIANTS` (external static data), each
variant represented by its canonical name. -/
def parse_tz (catalog : List (List Char)) (tz : List Char) : Option (List Char) :=
  match catalog.find? (fun n => decide (n = tz)) with
  | some t => some t
  | none =>
    let tzl := lowerStr tz
    catalog.find? (fun variant => containsSub tzl (normName variant))

/-- Decimal digit characters as rendered by Rust's `Display` for unsigned
integers (only `n < 10` is reachable; other inputs are never used). -/
def digitChar (n : Nat) : Char :=
  match n with
  | 0 => '0' | 1 => '1' | 2 => '2' | 3 => '3' | 4 => '4'
  | 5 => '5' | 6 => '6' | 7 => '7' | 8 => '8' | 9 => '9'
  | _ => '*'

/-- Numeric value of an ASCII digit character. -/
def digitVal (c : Char) : Nat :=
  c.toNat - 48

/-- Value of a digit string, as computed by Rust's `str::parse` on a string
of ASCII digits (overflow is checked separately by the caller). -/
def digitsVal (s : List Char) : Nat :=
  s.foldl (fun a c => 10 * a + digitVal c) 0

/-- Fuel-driven decimal rendering helper (structural recursion so that the
kernel can evaluate it inside `decide`). -/
def natDigitsAux : Nat → Nat → List Char
  | 0, _ => []
  | fuel + 1, n =>
    if n < 10 then [digitChar n]
    else natDigitsAux fuel (n / 10) ++ [digitChar (n % 10)]

/-- Decimal rendering of a `Nat`, mirroring Rust's `{}` formatting of an
unsigned integer. -/
def natDigits (n : Nat) : List Char :=
  natDigitsAux (n + 1) n

/-- Rust's `{:02}` formatting: zero-pad to width two (wider values are
rendered in full, never truncated). -/
def pad2 (n : Nat) : List Char :=
  if n < 10 then '0' :: natDigits n else natDigits n

example : natDigits 0 = ['0'] := by decide
example : natDigits 2021 = ['2', '0', '2', '1'] := by decide
example : pad2 7 = ['0', '7'] := by decide
example : pad2 123 = ['1', '2', '3'] := by decide
example : lowerStr "Asia/Kolkata".data = "asia/kolkata".data := by decide
example : containsSub "kolkata".data (normName "Asia/Kolkata".data) = true := by
  decide
example : containsSub "new_york".data (normName "America/New_York".data) = false := by
  decide

/-- A fixture catalog: real canonical identifiers in the relative order they
occupy in `chrono_tz::TZ_VARIANTS` (which enumerates names alphabetically,
starting with `Africa/Abidjan`). -/
def fixtureCatalog : List (List Char) :=
  ["Africa/Abidjan".data, "America/New_York".data,
   "Asia/Kolkata".data, "Europe/London".data]

example : parse_tz fixtureCatalog "Asia/Kolkata".data = some "Asia/Kolkata".data := by
  decide
example : parse_tz fixtureCatalog "kolkata".data = some "Asia/Kolkata".data := by
  decide
example : parse_tz fixtureCatalog "NotAZone".data = none := by decide
example : parse_tz fixtureCatalog "america/new york".data
    = some "America/New_York".data := by decide
example : parse_tz fixtureCatalog "america/new_york".data = none := by decide

/-- Greedy bounded digit scan: take up to `k` leading ASCII digits.  This is
how `chrono` parses a numeric field of maximum width `k` (at least one digit
is required; the caller checks emptiness). -/
def takeDigitsUpTo : Nat → List Char → List Char × List Char
  | 0, l => ([], l)
  | _ + 1, [] => ([], [])
  | k + 1, c :: l =>
    if isDigit c then
      let r := takeDigitsUpTo k l
      (c :: r.1, r.2)
    else ([], c :: l)

/-- Greedy unbounded digit scan, for the `(\d+)` groups of the short-time
pattern. -/
def spanDigits : List Char → List Char × List Char
  | [] => ([], [])
  | c :: l =>
    if isDigit c then
      let r := spanDigits l
      (c :: r.1, r.2)
    else ([], c :: l)

/-- Consume exactly `k` ASCII digits (the `\d{k}` regex item). -/
def expectDigits : Nat → List Char → Option (List Char)
  | 0, l => some l
  | _ + 1, [] => none
  | k + 1, c :: l => if isDigit c then expectDigits k l else none

/-- Consume one fixed character (a literal regex item). -/
def expectChar (x : Char) : List Char → Option (List Char)
  | [] => none
  | c :: l => if c = x then some l else none

/-- The anchored pattern `^\d{4}-\d{2}-\d{2}$` (the `only_date` regex of
`parse_datetime_in_tz`). -/
def onlyDateMatch (l : List Char) : Bool :=
  match expectDigits 4 l with
  | none => false
  | some r =>
    match expectChar '-' r with
    | none => false
    | some r =>
      match expectDigits 2 r with
      | none => false
      | some r =>
        match expectChar '-' r with
        | none => false
        | some r =>
          match expectDigits 2 r with
          | none => false
          | some r => decide (r = [])

/-- The anchored pattern `^\d{1,2}:\d{2}$` (the `only_time` regex).  The
greedy bounded scan followed by the literal `':'` is equivalent to the
backtracking `\d{1,2}:` because a digit can never match `':'`. -/
def onlyTimeMatch (l : List Char) : Bool :=
  let p := takeDigitsUpTo 2 l
  match p.1, p.2 with
  | [], _ => false
  | _ :: _, ':' :: r =>
    match expectDigits 2 r with
    | none => false
    | some r2 => decide (r2 = [])
  | _ :: _, _ => false

/-- The anchored pattern `^\d{4}-\d{2}-\d{2} \d{1,2}:\d{2}$` (the
`date_and_time` regex). -/
def dateAndTimeMatch (l : List Char) : Bool :=
  match expectDigits 4 l with
  | none => false
  | some r =>
    match expectChar '-' r with
    | none => false
    | some r =>
      match expectDigits 2 r with
      | none => false
      | some r =>
        match expectChar '-' r with
        | none => false
        | some r =>
          match expectDigits 2 r with
          | none => false
          | some r =>
            match expectChar ' ' r with
            | none => false
            | some r =>
              let p := takeDigitsUpTo 2 r
              match p.1, p.2 with
              | [], _ => false
              | _ :: _, ':' :: r2 =>
                match expectDigits 2 r2 with
                | none => false
                | some r3 => decide (r3 = [])
              | _ :: _, _ => false

/-- The capture groups of the `short_time` regex
`^(\d+):?(\d+)?\s?(am|pm)$`: the hour digits, the optional minute digits and
whether the suffix was `pm`. -/
structure STCaps where
  hour : List Char
  minute : Option (List Char)
  isPm : Bool
deriving DecidableEq

/-- Match the `\s?(am|pm)$` tail of the short-time pattern, returning whether
the suffix is `pm`. -/
def tailMatch : List Char → Option Bool
  | 'a' :: 'm' :: [] => some false
  | 'p' :: 'm' :: [] => some true
  | c :: 'a' :: 'm' :: [] => if isWs c then some false else none
  | c :: 'p' :: 'm' :: [] => if isWs c then some true else none
  | _ => none

/-- Captures of the anchored `short_time` regex under the `regex` crate's
leftmost-first semantics: group 1 greedily takes every leading digit (a
shorter choice would leave a digit in front of `:?`, `\s?` or `(am|pm)`,
none of which can consume it), group 2 takes every digit after the optional
`':'`, and the rest must be an optional whitespace plus `am`/`pm`.  Returns
`none` when the regex does not match. -/
def shortTimeCaps (l : List Char) : Option STCaps :=
  match spanDigits l with
  | ([], _) => none
  | (h :: hs, ':' :: r) =>
    match spanDigits r with
    | ([], r2) => (tailMatch r2).map (fun pm => ⟨h :: hs, none, pm⟩)
    | (m0 :: ms, r2) => (tailMatch r2).map (fun pm => ⟨h :: hs, some (m0 :: ms), pm⟩)
  | (h :: hs, r) => (tailMatch r).map (fun pm => ⟨h :: hs, none, pm⟩)

example : shortTimeCaps "5pm".data = some ⟨['5'], none, true⟩ := by decide
example : shortTimeCaps "10:30am".data = some ⟨['1', '0'], some ['3', '0'], false⟩ := by
  decide
example : shortTimeCaps "3 am".data = some ⟨['3'], none, false⟩ := by decide
example : shortTimeCaps "5:7pm".data = some ⟨['5'], some ['7'], true⟩ := by decide
example : shortTimeCaps "5:30".data = none := by decide
example : onlyDateMatch "2021-07-09".data = true := by decide
example : onlyTimeMatch "05:00".data = true := by decide
example : onlyTimeMatch "123:00".data = false := by decide
example : dateAndTimeMatch "2021-07-09 5:00".data = true := by decide

/-- The date component of the value `Local::now()` returns inside
`parse_short_time` and the time-only branch of `parse_datetime_in_tz`.  The
Rust code reads the system clock here; the embedding reifies that hidden
read as an explicit argument. -/
structure Date where
  y : Nat
  m : Nat
  d : Nat
deriving DecidableEq

/-- A wall-clock (naive) datetime, as produced by parsing
`"%Y-%m-%d %H:%M"` (seconds default to zero and stay zero). -/
structure NaiveDT where
  y : Nat
  m : Nat
  d : Nat
  hh : Nat
  mi : Nat
deriving DecidableEq

/-- Proleptic-Gregorian leap year rule, as used by `chrono`. -/
def isLeap (y : Nat) : Bool :=
  decide ((y % 4 = 0 ∧ y % 100 ≠ 0) ∨ y % 400 = 0)

/-- Days in a month of the proleptic Gregorian calendar. -/
def daysInMonth (y m : Nat) : Nat :=
  if m = 2 then (if isLeap y then 29 else 28)
  else if m = 4 ∨ m = 6 ∨ m = 9 ∨ m = 11 then 30
  else 31

/-- Days from 1970-01-01 to the given civil date (Howard Hinnant's
`days_from_civil`, the standard algorithm `chrono` agrees with). -/
def daysFromCivil (y m d : Nat) : Int :=
  let yi : Int := if m ≤ 2 then (y : Int) - 1 else (y : Int)
  let era : Int := yi.fdiv 400
  let yoe : Int := yi - era * 400
  let mp : Int := if m ≤ 2 then (m : Int) + 9 else (m : Int) - 3
  let doy : Int := (153 * mp + 2).fdiv 5 + (d : Int) - 1
  let doe : Int := yoe * 365 + yoe.fdiv 4 - yoe.fdiv 100 + doy
  era * 146097 + doe - 719468

/-- Seconds from the Unix epoch to a naive datetime read as UTC. -/
def toEpochSeconds (t : NaiveDT) : Int :=
  daysFromCivil t.y t.m t.d * 86400 + (t.hh : Int) * 3600 + (t.mi : Int) * 60

example : daysFromCivil 1970 1 1 = 0 := by decide
example : daysFromCivil 2021 1 1 = 18628 := by decide
example : toEpochSeconds ⟨2021, 7, 9, 17, 30⟩ = 1625851800 := by decide

/-- The timezones of the model.  `chrono_tz` carries the whole IANA database;
the embedding models a representative universe: a fixed-offset zone
(`Asia/Kolkata`, UTC+5:30), a DST zone (`America/New_York`, with its real
2021 transitions from the IANA database: EST→EDT at UTC 2021-03-14 07:00,
EDT→EST at UTC 2021-11-07 06:00) and UTC. -/
inductive Tz where
  | kolkata
  | newYork
  | utc
deriving DecidableEq

/-- The UTC offsets (in seconds) a zone ever uses in the modelled period. -/
def candidateOffsets : Tz → List Int
  | .kolkata => [19800]
  | .newYork => [-14400, -18000]
  | .utc => [0]

/-- The UTC offset of a zone at an absolute instant (seconds since epoch).
For `America/New_York` the two 2021 transition instants are
1615705200 (2021-03-14 07:00 UTC) and 1636264800 (2021-11-07 06:00 UTC). -/
def utcOffset : Tz → Int → Int
  | .kolkata, _ => 19800
  | .utc, _ => 0
  | .newYork, t => if 1615705200 ≤ t ∧ t < 1636264800 then -14400 else -18000

/-- The UTC offsets under which a zone realises a given wall-clock time:
exactly the candidate offsets consistent with the instant they induce.  This
is `chrono-tz`'s `from_local_datetime`: an empty list is a nonexistent local
time (DST gap), two offsets an ambiguous one (DST fold). -/
def offsetsAt (tz : Tz) (t : NaiveDT) : List Int :=
  (candidateOffsets tz).filter (fun o => decide (utcOffset tz (toEpochSeconds t - o) = o))

/-- `chrono::DateTime<Tz>`: an absolute instant (seconds since the Unix
epoch) paired with the timezone giving its wall-clock representation. -/
structure DateTime where
  instant : Int
  tz : Tz
deriving DecidableEq

/-- Parsing of the format string `"%Y-%m-%d %H:%M"` by
`chrono`: greedy bounded numeric fields (year up to four digits as reachable
here, month/day/hour/minute up to two), the literal separators, full
consumption of the input, then calendar validation.  Returns the parsed
wall-clock time; seconds are zero. -/
def parseFormat (s : List Char) : Option NaiveDT :=
  match takeDigitsUpTo 4 s with
  | ([], _) => none
  | (y0 :: ys, '-' :: r) =>
    match takeDigitsUpTo 2 r with
    | ([], _) => none
    | (m0 :: ms, '-' :: r) =>
      match takeDigitsUpTo 2 r with
      | ([], _) => none
      | (d0 :: ds, ' ' :: r) =>
        match takeDigitsUpTo 2 r with
        | ([], _) => none
        | (h0 :: hs, ':' :: r) =>
          match takeDigitsUpTo 2 r with
          | ([], _) => none
          | (i0 :: is, []) =>
            let y := digitsVal (y0 :: ys)
            let m := digitsVal (m0 :: ms)
            let d := digitsVal (d0 :: ds)
            let hh := digitsVal (h0 :: hs)
            let mi := digitsVal (i0 :: is)
            if 1 ≤ m ∧ m ≤ 12 ∧ 1 ≤ d ∧ d ≤ daysInMonth y m ∧ hh ≤ 23 ∧ mi ≤ 59
            then some ⟨y, m, d, hh, mi⟩ else none
          | (_ :: _, _ :: _) => none
        | (_ :: _, _) => none
      | (_ :: _, _) => none
    | (_ :: _, _) => none
  | (_ :: _, _) => none

/-- `tz.datetime_from_str(s, "%Y-%m-%d %H:%M").ok()`: parse the wall-clock
time, then resolve it in the zone; `chrono` accepts the result only when the
local time is realised by exactly one offset (`LocalResult::Single`),
returning the corresponding absolute instant. -/
def datetime_from_str (tz : Tz) (s : List Char) : Option DateTime :=
  match parseFormat s with
  | none => none
  | some ndt =>
    match offsetsAt tz ndt with
    | [o] => some ⟨toEpochSeconds ndt - o, tz⟩
    | _ => none

/-- Outcome of running a piece of Rust code that may `panic!` (directly or
through `unwrap`): either a crash or a value. -/
inductive Exec (α : Type) where
  | crash
  | ok (a : α)
deriving DecidableEq

/-- `usize::MAX` on the 64-bit targets the crate builds for. -/
def usizeMax : Nat := 18446744073709551615

/-- `i32::MAX`. -/
def i32Max : Nat := 2147483647

/-- Embedding of `parse_short_time` (src/src/lib.rs:65-87).  The minute
group is parsed first as `i32` (a failed parse — overflow — panics through
`unwrap`), then the hour as `usize` (same panic on overflow; the release
build wraps the `+ 12`).  The result is the formatted string
`"{}-{:02}-{:02} {:02}:{:02}"` over today's date, the computed hour and the
minute. -/
def parse_short_time (today : Date) (caps : STCaps) : Exec (List Char) :=
  let minuteRes : Exec Nat :=
    match caps.minute with
    | none => .ok 0
    | some ds => if digitsVal ds ≤ i32Max then .ok (digitsVal ds) else .crash
  match minuteRes with
  | .crash => .crash
  | .ok minute =>
    if digitsVal caps.hour ≤ usizeMax then
      let hour :=
        if caps.isPm then (digitsVal caps.hour + 12) % (usizeMax + 1)
        else digitsVal caps.hour
      .ok (natDigits today.y ++ '-' :: (pad2 today.m ++ '-' :: (pad2 today.d ++
        ' ' :: (pad2 hour ++ ':' :: pad2 minute))))
    else .crash

/-- The branch cascade of `parse_datetime_in_tz` (src/src/lib.rs:42-59):
normalize the (already lower-cased) input to the canonical
`YYYY-MM-DD HH:MM` shape, or report that no pattern matched (`ok none`), or
crash if `parse_short_time` panics.  The time-only branch renders today's
date unpadded (`"{}-{}-{} {}"`). -/
def normalizeShape (today : Date) (dt : List Char) : Exec (Option (List Char)) :=
  if onlyDateMatch dt then
    .ok (some (dt ++ ' ' :: ('0' :: '0' :: ':' :: '0' :: ['0'])))
  else
    match shortTimeCaps dt with
    | some caps =>
      match parse_short_time today caps with
      | .crash => .crash
      | .ok s => .ok (some s)
    | none =>
      if onlyTimeMatch dt then
        .ok (some (natDigits today.y ++ '-' :: (natDigits today.m ++ '-' ::
          (natDigits today.d ++ ' ' :: dt))))
      else if dateAndTimeMatch dt then .ok (some dt)
      else .ok none

/-- Embedding of `parse_datetime_in_tz` (src/src/lib.rs:34-63): lower-case
the input, normalize it through the branch cascade, then parse the result
with `datetime_from_str`.  `today` reifies the `Local::now()` reads of the
source. -/
def parse_datetime_in_tz (today : Date) (tz : Tz) (datetime : List Char) :
    Exec (Option DateTime) :=
  match normalizeShape today (lowerStr datetime) with
  | .crash => .crash
  | .ok none => .ok none
  | .ok (some ds) => .ok (datetime_from_str tz ds)

/-- Embedding of `convert` (src/src/lib.rs:89-91):
`dt.with_timezone(&to_timezone)` keeps the absolute instant and re-expresses
it in the target zone. -/
def convert (dt : DateTime) (to_timezone : Tz) : DateTime :=
  ⟨dt.instant, to_timezone⟩

example : parse_datetime_in_tz ⟨2021, 7, 9⟩ .kolkata "2021-07-09 05:00".data
    = .ok (some ⟨toEpochSeconds ⟨2021, 7, 9, 5, 0⟩ - 19800, .kolkata⟩) := by decide
example : parse_datetime_in_tz ⟨2021, 7, 9⟩ .kolkata "2021-07-09".data
    = .ok (some ⟨toEpochSeconds ⟨2021, 7, 9, 0, 0⟩ - 19800, .kolkata⟩) := by decide
example : parse_datetime_in_tz ⟨2021, 7, 9⟩ .kolkata "3am".data
    = .ok (some ⟨toEpochSeconds ⟨2021, 7, 9, 3, 0⟩ - 19800, .kolkata⟩) := by decide
example : parse_datetime_in_tz ⟨2021, 7, 9⟩ .kolkata "10pm".data
    = .ok (some ⟨toEpochSeconds ⟨2021, 7, 9, 22, 0⟩ - 19800, .kolkata⟩) := by decide
example : parse_datetime_in_tz ⟨2021, 7, 9⟩ .kolkata "5:30pm".data
    = .ok (some ⟨toEpochSeconds ⟨2021, 7, 9, 17, 30⟩ - 19800, .kolkata⟩) := by decide
example : parse_datetime_in_tz ⟨2021, 7, 9⟩ .kolkata "not a date".data = .ok none := by
  decide
example : parse_datetime_in_tz ⟨2021, 7, 9⟩ .kolkata "12pm".data = .ok none := by
  decide
example : parse_datetime_in_tz ⟨2021, 7, 9⟩ .newYork "2021-03-14 02:30".data
    = .ok none := by decide
example : parse_datetime_in_tz ⟨2021, 7, 9⟩ .newYork "2021-11-07 01:30".data
    = .ok none := by decide
example : parse_datetime_in_tz ⟨2021, 7, 9⟩ .newYork "2021-03-14 03:30".data
    = .ok (some ⟨toEpochSeconds ⟨2021, 3, 14, 3, 30⟩ + 14400, .newYork⟩) := by decide
example : offsetsAt .newYork ⟨2021, 11, 7, 1, 30⟩ = [-14400, -18000] := by decide
example : offsetsAt .newYork ⟨2021, 3, 14, 2, 30⟩ = [] := by decide
example : parse_datetime_in_tz ⟨2021, 7, 9⟩ .kolkata
    "99999999999999999999am".data = .crash := by decide

/-! ## Lemmas about decimal rendering and digit strings -/

lemma natDigitsAux_succ (f n : Nat) :
    natDigitsAux (f + 1) n =
      if n < 10 then [digitChar n]
      else natDigitsAux f (n / 10) ++ [digitChar (n % 10)] := rfl

lemma natDigitsAux_fuel (n : Nat) :
    ∀ f g, n < f → n < g → natDigitsAux f n = natDigitsAux g n := by
  induction n using Nat.strong_induction_on with
  | _ n ih =>
    intro f g hf hg
    match f, g with
    | f + 1, g + 1 =>
      rw [natDigitsAux_succ, natDigitsAux_succ]
      by_cases h10 : n < 10
      · simp [h10]
      · have hn : 0 < n := by omega
        have hdiv : n / 10 < n := Nat.div_lt_self hn (by omega)
        simp only [h10, if_false]
        rw [ih (n / 10) hdiv f g (by omega) (by omega)]

lemma natDigits_small {n : Nat} (h : n < 10) : natDigits n = [digitChar n] := by
  rw [natDigits, natDigitsAux_succ, if_pos h]

lemma natDigits_step {n : Nat} (h : 10 ≤ n) :
    natDigits n = natDigits (n / 10) ++ [digitChar (n % 10)] := by
  have hdiv : n / 10 < n := Nat.div_lt_self (by omega) (by omega)
  rw [natDigits, natDigitsAux_succ, if_neg (by omega), natDigits,
    natDigitsAux_fuel (n / 10) n (n / 10 + 1) hdiv (by omega)]

lemma isDigit_digitChar {n : Nat} (h : n < 10) : isDigit (digitChar n) = true := by
  interval_cases n <;> decide

lemma digitVal_digitChar {n : Nat} (h : n < 10) : digitVal (digitChar n) = n := by
  interval_cases n <;> decide

lemma natDigits_all_digit (n : Nat) : (natDigits n).all isDigit = true := by
  induction n using Nat.strong_induction_on with
  | _ n ih =>
    by_cases h10 : n < 10
    · rw [natDigits_small h10]
      simp [isDigit_digitChar h10]
    · rw [natDigits_step (by omega), List.all_append]
      have hdiv : n / 10 < n := Nat.div_lt_self (by omega) (by omega)
      simp [ih (n / 10) hdiv, isDigit_digitChar (Nat.mod_lt n (by omega))]

lemma digitsVal_append_last (xs : List Char) (c : Char) :
    digitsVal (xs ++ [c]) = 10 * digitsVal xs + digitVal c := by
  simp [digitsVal, List.foldl_append]

lemma digitsVal_natDigits (n : Nat) : digitsVal (natDigits n) = n := by
  induction n using Nat.strong_induction_on with
  | _ n ih =>
    by_cases h10 : n < 10
    · rw [natDigits_small h10]
      simp [digitsVal, digitVal_digitChar h10]
    · have hdiv : n / 10 < n := Nat.div_lt_self (by omega) (by omega)
      rw [natDigits_step (by omega), digitsVal_append_last, ih (n / 10) hdiv,
        digitVal_digitChar (Nat.mod_lt n (by omega))]
      omega

lemma natDigits_length1 {n : Nat} (h : n < 10) : (natDigits n).length = 1 := by
  rw [natDigits_small h]
  rfl

lemma natDigits_length2 {n : Nat} (h1 : 10 ≤ n) (h2 : n < 100) :
    (natDigits n).length = 2 := by
  rw [natDigits_step h1, List.length_append, natDigits_length1 (by omega)]
  rfl

lemma natDigits_length3 {n : Nat} (h1 : 100 ≤ n) (h2 : n < 1000) :
    (natDigits n).length = 3 := by
  rw [natDigits_step (by omega), List.length_append,
    natDigits_length2 (by omega) (by omega)]
  rfl

lemma natDigits_length4 {n : Nat} (h1 : 1000 ≤ n) (h2 : n < 10000) :
    (natDigits n).length = 4 := by
  rw [natDigits_step (by omega), List.length_append,
    natDigits_length3 (by omega) (by omega)]
  rfl

lemma pad2_all_digit (n : Nat) : (pad2 n).all isDigit = true := by
  rw [pad2]
  by_cases h : n < 10
  · simp [h, natDigits_all_digit n]
    decide
  · simp [h, natDigits_all_digit n]

lemma pad2_length {n : Nat} (h : n < 100) : (pad2 n).length = 2 := by
  rw [pad2]
  by_cases h10 : n < 10
  · simp [h10, natDigits_length1 h10]
  · simp [h10, natDigits_length2 (by omega) h]

lemma digitsVal_cons_zero (xs : List Char) : digitsVal ('0' :: xs) = digitsVal xs := by
  simp [digitsVal, List.foldl_cons]
  rfl

lemma pad2_val (n : Nat) : digitsVal (pad2 n) = n := by
  rw [pad2]
  by_cases h10 : n < 10
  · simp [h10, digitsVal_cons_zero, digitsVal_natDigits]
  · simp [h10, digitsVal_natDigits]

/-! ## Lemmas about the scanners -/

lemma takeDigitsUpTo_exact :
    ∀ (ds : List Char) (k : Nat) (rest : List Char), ds.all isDigit = true →
      ds.length = k → takeDigitsUpTo k (ds ++ rest) = (ds, rest) := by
  intro ds
  induction ds with
  | nil =>
    intro k rest _ hlen
    subst hlen
    rfl
  | cons c ds ih =>
    intro k rest hall hlen
    rw [List.all_cons, Bool.and_eq_true] at hall
    match k, hlen with
    | k + 1, hlen =>
      show takeDigitsUpTo (k + 1) (c :: (ds ++ rest)) = (c :: ds, rest)
      rw [takeDigitsUpTo, if_pos hall.1,
        ih k rest hall.2 (by simp only [List.length_cons] at hlen; omega)]

/-- Head of the remainder is not a digit (vacuously true for an empty
remainder): the condition under which a greedy digit scan stops exactly at
the boundary of an all-digit block. -/
def headNotDigit : List Char → Prop
  | [] => True
  | c :: _ => isDigit c = false

lemma spanDigits_append :
    ∀ (ds rest : List Char), ds.all isDigit = true → headNotDigit rest →
      spanDigits (ds ++ rest) = (ds, rest) := by
  intro ds
  induction ds with
  | nil =>
    intro rest _ hrest
    match rest, hrest with
    | [], _ => rfl
    | c :: r, hr =>
      have hr2 : isDigit c = false := hr
      show spanDigits (c :: r) = ([], c :: r)
      rw [spanDigits, if_neg (by simp [hr2])]
  | cons c ds ih =>
    intro rest hall hrest
    rw [List.all_cons, Bool.and_eq_true] at hall
    show spanDigits (c :: (ds ++ rest)) = (c :: ds, rest)
    rw [spanDigits, if_pos hall.1, ih rest hall.2 hrest]

lemma expectDigits_sound :
    ∀ (k : Nat) (l r : List Char), expectDigits k l = some r →
      ∀ c ∈ l, c ∈ r ∨ isDigit c = true := by
  intro k
  induction k with
  | zero =>
    intro l r h c hc
    rw [expectDigits] at h
    cases h
    exact Or.inl hc
  | succ k ih =>
    intro l r h c hc
    match l, hc with
    | x :: l, hc =>
      rw [expectDigits] at h
      by_cases hx : isDigit x
      · rw [if_pos hx] at h
        rcases List.mem_cons.mp hc with hcx | hcl
        · exact Or.inr (hcx ▸ hx)
        · exact ih l r h c hcl
      · rw [if_neg hx] at h
        cases h

lemma expectChar_sound :
    ∀ (x : Char) (l r : List Char), expectChar x l = some r →
      ∀ c ∈ l, c ∈ r ∨ c = x := by
  intro x l r h c hc
  match l, hc with
  | y :: l, hc =>
    rw [expectChar] at h
    by_cases hy : y = x
    · rw [if_pos hy] at h
      cases h
      rcases List.mem_cons.mp hc with hcy | hcl
      · exact Or.inr (hcy.trans hy)
      · exact Or.inl hcl
    · rw [if_neg hy] at h
      cases h

lemma onlyDateMatch_chars {l : List Char} (h : onlyDateMatch l = true) :
    ∀ c ∈ l, isDigit c = true ∨ c = '-' := by
  intro c hc
  rw [onlyDateMatch] at h
  split at h
  · cases h
  next r1 h1 =>
    split at h
    · cases h
    next r2 h2 =>
      split at h
      · cases h
      next r3 h3 =>
        split at h
        · cases h
        next r4 h4 =>
          split at h
          · cases h
          next r5 h5 =>
            have hr5 : r5 = [] := of_decide_eq_true h
            rcases expectDigits_sound 4 l r1 h1 c hc with hc1 | hd
            · rcases expectChar_sound '-' r1 r2 h2 c hc1 with hc2 | hdash
              · rcases expectDigits_sound 2 r2 r3 h3 c hc2 with hc3 | hd
                · rcases expectChar_sound '-' r3 r4 h4 c hc3 with hc4 | hdash
                  · rcases expectDigits_sound 2 r4 r5 h5 c hc4 with hc5 | hd
                    · rw [hr5] at hc5
                      cases hc5
                    · exact Or.inl hd
                  · exact Or.inr hdash
                · exact Or.inl hd
              · exact Or.inr hdash
            · exact Or.inl hd

/-! ## Lemmas about lower-casing, substrings and catalog search -/

lemma lowerChar_eq_self {c : Char} (h : c.toNat < 65 ∨ 90 < c.toNat) :
    lowerChar c = c := by
  rw [lowerChar, if_neg (by omega)]

lemma lowerChar_of_digit {c : Char} (h : isDigit c = true) : lowerChar c = c := by
  rw [isDigit, decide_eq_true_eq] at h
  exact lowerChar_eq_self (Or.inl (by omega))

lemma lowerStr_eq_self {l : List Char} (h : ∀ c ∈ l, lowerChar c = c) :
    lowerStr l = l := by
  induction l with
  | nil => rfl
  | cons c l ih =>
    show lowerChar c :: lowerStr l = c :: l
    rw [h c (List.mem_cons_self c l), ih (fun x hx => h x (List.mem_cons_of_mem c hx))]

lemma underscore_mem_lowerStr {l : List Char} (h : '_' ∈ l) : '_' ∈ lowerStr l := by
  rw [lowerStr, List.mem_map]
  exact ⟨'_', h, by decide⟩

lemma underscore_not_mem_replUnd (l : List Char) : '_' ∉ replUnd l := by
  intro hmem
  rw [replUnd, List.mem_map] at hmem
  obtain ⟨x, _, hx⟩ := hmem
  by_cases hxu : x = '_'
  · rw [if_pos hxu] at hx
    cases hx
  · rw [if_neg hxu] at hx
    exact hxu hx

lemma isPrefixOf_subset :
    ∀ {l₁ l₂ : List Char}, l₁.isPrefixOf l₂ = true → ∀ c ∈ l₁, c ∈ l₂ := by
  intro l₁
  induction l₁ with
  | nil =>
    intro l₂ _ c hc
    cases hc
  | cons a as ih =>
    intro l₂ h c hc
    match l₂, h with
    | b :: bs, h =>
      rw [List.isPrefixOf_cons₂] at h
      rw [Bool.and_eq_true, beq_iff_eq] at h
      rcases List.mem_cons.mp hc with hca | hcas
      · exact List.mem_cons.mpr (Or.inl (hca.trans h.1))
      · exact List.mem_cons.mpr (Or.inr (ih h.2 c hcas))

lemma containsSub_subset {needle hay : List Char}
    (h : containsSub needle hay = true) : ∀ c ∈ needle, c ∈ hay := by
  intro c hc
  rw [containsSub, List.any_eq_true] at h
  obtain ⟨t, ht, hpre⟩ := h
  have hsuf : t <:+ hay := (List.mem_tails t hay).mp ht
  exact hsuf.sublist.subset (isPrefixOf_subset hpre c hc)

lemma containsSub_nil (hay : List Char) : containsSub [] hay = true := by
  cases hay with
  | nil => decide
  | cons c t =>
    rw [containsSub, List.tails]
    simp [List.isPrefixOf]

lemma find?_first {α : Type} [DecidableEq α] (p : α → Bool) :
    ∀ (l : List α) (z : α), l.find? p = some z ↔
      ∃ pre post, l = pre ++ z :: post ∧ p z = true ∧ ∀ w ∈ pre, p w = false := by
  intro l
  induction l with
  | nil =>
    intro z
    constructor
    · intro h
      cases h
    · rintro ⟨pre, post, habs, -, -⟩
      cases pre <;> cases habs
  | cons a l ih =>
    intro z
    by_cases ha : p a
    · rw [List.find?_cons_of_pos _ ha]
      constructor
      · intro h
        cases h
        exact ⟨[], l, rfl, ha, by intro w hw; cases hw⟩
      · rintro ⟨pre, post, hsplit, hz, hpre⟩
        cases pre with
        | nil =>
          cases hsplit
          rfl
        | cons b pre =>
          rw [List.cons_append] at hsplit
          injection hsplit with hab _
          rw [hpre a (hab ▸ List.mem_cons_self b pre)] at ha
          cases ha
    · rw [List.find?_cons_of_neg _ ha, ih z]
      constructor
      · rintro ⟨pre, post, hsplit, hz, hpre⟩
        refine ⟨a :: pre, post, by rw [hsplit, List.cons_append], hz, ?_⟩
        intro w hw
        rcases List.mem_cons.mp hw with hwa | hwp
        · rw [hwa]
          exact Bool.eq_false_iff.mpr ha
        · exact hpre w hwp
      · rintro ⟨pre, post, hsplit, hz, hpre⟩
        cases pre with
        | nil =>
          cases hsplit
          rw [hz] at ha
          cases ha rfl
        | cons b pre =>
          rw [List.cons_append] at hsplit
          injection hsplit with hab htail
          exact ⟨pre, post, htail, hz, fun w hw =>
            hpre w (List.mem_cons_of_mem b hw)⟩

lemma find_exact_none {catalog : List (List Char)} {raw : List Char}
    (h : raw ∉ catalog) :
    catalog.find? (fun n => decide (n = raw)) = none := by
  apply List.find?_eq_none.mpr
  intro x hx
  simp only [decide_eq_true_eq]
  intro heq
  exact h (heq ▸ hx)

lemma find_exact_mem :
    ∀ (catalog : List (List Char)) (z : List Char), z ∈ catalog →
      catalog.find? (fun n => decide (n = z)) = some z := by
  intro catalog
  induction catalog with
  | nil =>
    intro z hz
    cases hz
  | cons a l ih =>
    intro z hz
    by_cases ha : a = z
    · rw [List.find?_cons_of_pos _ (by simp [ha]), ha]
    · rcases List.mem_cons.mp hz with hza | hzl
      · exact absurd hza.symm ha
      · rw [List.find?_cons_of_neg _ (by simp [ha]), ih z hzl]

/-! ## Claim theorems: timezone resolution -/

/-- C7: for every canonical timezone identifier `z` as typically written
(case-sensitively), resolution returns exactly that identifier, via the
exact-match lookup (`Tz::from_str`) and therefore without falling through to
the fuzzy branch. -/
theorem C7_exact_match (catalog : List (List Char)) (z : List Char)
    (h : z ∈ catalog) :
    catalog.find? (fun n => decide (n = z)) = some z ∧
      parse_tz catalog z = some z := by
  have hfind := find_exact_mem catalog z h
  refine ⟨hfind, ?_⟩
  rw [parse_tz, hfind]

/-- C7 witness: `Asia/Kolkata` resolves to itself in the fixture catalog. -/
theorem C7_exact_match_witness :
    "Asia/Kolkata".data ∈ fixtureCatalog ∧
      parse_tz fixtureCatalog "Asia/Kolkata".data = some "Asia/Kolkata".data :=
  ⟨by decide, (C7_exact_match fixtureCatalog "Asia/Kolkata".data (by decide)).2⟩

/-- C4: for a raw string that is not an exact canonical identifier,
resolution is exactly first-substring-match over normalized names: it
returns `some z` precisely when the catalog splits as `pre ++ z :: post`
with the lower-cased raw contained in `z`'s normalized name (underscores
replaced by spaces, lower-cased) and in no normalized name of `pre`; it
returns `none` precisely when no normalized catalog name contains the
lower-cased raw. -/
theorem C4_fuzzy_first_match (catalog : List (List Char)) (raw : List Char)
    (h : raw ∉ catalog) :
    (∀ z, parse_tz catalog raw = some z ↔
       ∃ pre post, catalog = pre ++ z :: post ∧
         containsSub (lowerStr raw) (normName z) = true ∧
         ∀ w ∈ pre, containsSub (lowerStr raw) (normName w) = false) ∧
    (parse_tz catalog raw = none ↔
       ∀ w ∈ catalog, containsSub (lowerStr raw) (normName w) = false) := by
  have hex := find_exact_none h
  constructor
  · intro z
    rw [parse_tz, hex]
    exact find?_first _ catalog z
  · rw [parse_tz, hex]
    rw [List.find?_eq_none]
    constructor
    · intro hall w hw
      exact Bool.eq_false_iff.mpr (hall w hw)
    · intro hall w hw
      rw [hall w hw]
      exact Bool.false_ne_true

/-- C4 witness: `"kolkata"` is not canonical; in the fixture catalog the
`none`-characterization applies to it (and indeed it fuzzy-resolves to
`Asia/Kolkata`, the first normalized name containing it). -/
theorem C4_fuzzy_first_match_witness :
    ("kolkata".data ∉ fixtureCatalog) ∧
      (parse_tz fixtureCatalog "kolkata".data = none ↔
        ∀ w ∈ fixtureCatalog,
          containsSub (lowerStr "kolkata".data) (normName w) = false) ∧
      parse_tz fixtureCatalog "kolkata".data = some "Asia/Kolkata".data :=
  ⟨by decide,
   (C4_fuzzy_first_match fixtureCatalog "kolkata".data (by decide)).2,
   by decide⟩

/-- C8: a raw string that is not an exact canonical identifier and contains
an underscore never resolves: normalization replaces underscores by spaces
in catalog names only, never in the raw input, so no normalized name can
contain the lower-cased raw. -/
theorem C8_underscore_never_resolves (catalog : List (List Char))
    (raw : List Char) (h1 : raw ∉ catalog) (h2 : '_' ∈ raw) :
    parse_tz catalog raw = none := by
  rw [parse_tz, find_exact_none h1]
  apply List.find?_eq_none.mpr
  intro v _ hcontains
  exact underscore_not_mem_replUnd (lowerStr v)
    (containsSub_subset hcontains '_' (underscore_mem_lowerStr h2))

/-- C8 witness: `"america/new_york"` (not canonical, case-sensitive) fails
to resolve, while `"america/new york"` resolves to `America/New_York`. -/
theorem C8_underscore_never_resolves_witness :
    ("america/new_york".data ∉ fixtureCatalog) ∧
      ('_' ∈ "america/new_york".data) ∧
      parse_tz fixtureCatalog "america/new_york".data = none ∧
      parse_tz fixtureCatalog "america/new york".data
        = some "America/New_York".data :=
  ⟨by decide, by decide,
   C8_underscore_never_resolves fixtureCatalog "america/new_york".data
     (by decide) (by decide),
   by decide⟩

/-- C9: the empty string is contained in every normalized catalog name, so
resolving it yields the first catalog entry (rather than `none`), provided
the empty string is not itself a catalog entry (it never is). -/
theorem C9_empty_string_resolves_to_first (catalog : List (List Char))
    (h : ([] : List Char) ∉ catalog) :
    parse_tz catalog [] = catalog.head? := by
  rw [parse_tz, find_exact_none h]
  cases catalog with
  | nil => rfl
  | cons c rest =>
    rw [List.find?_cons_of_pos _ ?_]
    · rfl
    · show containsSub (lowerStr []) (normName c) = true
      exact containsSub_nil (normName c)

/-- C9 witness: on the fixture catalog the empty string resolves to
`Africa/Abidjan`, the first entry of the enumeration. -/
theorem C9_empty_string_resolves_to_first_witness :
    (([] : List Char) ∉ fixtureCatalog) ∧
      parse_tz fixtureCatalog [] = some "Africa/Abidjan".data :=
  ⟨by decide,
   (C9_empty_string_resolves_to_first fixtureCatalog (by decide)).trans
     (by decide)⟩

/-! ## Claim theorems: conversion, panic-freedom, DST handling -/

/-- C6: `convert` is total by construction and preserves the absolute
instant: converting an instant to zone `b` and back to zone `a` (indeed, any
single conversion) leaves the instant unchanged, while the attached zone —
the wall-clock representation — becomes the target zone. -/
theorem C6_convert_round_trip (i : DateTime) (a b : Tz) :
    (convert (convert i b) a).instant = i.instant ∧
      (convert i b).instant = i.instant ∧ (convert i b).tz = b ∧
      (convert (convert i b) a).tz = a :=
  ⟨rfl, rfl, rfl, rfl⟩

/-- C2 is a code bug, not a property of the code: `parse_short_time` parses
the hour capture with `.parse::<usize>().unwrap()`, so a short-time input
whose hour field exceeds `usize::MAX` — here twenty nines — makes the
process panic instead of returning an empty result.  This theorem evaluates
the embedding at that failing input. -/
theorem C2_overflow_panics :
    parse_datetime_in_tz ⟨2021, 7, 9⟩ Tz.kolkata
      "99999999999999999999am".data = Exec.crash := by decide

/-- C5: whenever the input normalizes (without panicking) to a canonical
`YYYY-MM-DD HH:MM` string naming a syntactically valid wall-clock time that
is not realised by exactly one offset of the target zone — i.e. the time is
nonexistent (DST gap) or ambiguous (DST fold) — the parser returns the
empty result instead of choosing a candidate instant. -/
theorem C5_dst_gap_fold_is_failure (today : Date) (tz : Tz) (s ds : List Char)
    (ndt : NaiveDT) (h1 : normalizeShape today (lowerStr s) = Exec.ok (some ds))
    (h2 : parseFormat ds = some ndt) (h3 : (offsetsAt tz ndt).length ≠ 1) :
    parse_datetime_in_tz today tz s = Exec.ok none := by
  rw [parse_datetime_in_tz, h1]
  simp only [datetime_from_str, h2]
  match hoff : offsetsAt tz ndt with
  | [] => rfl
  | [o] => rw [hoff] at h3; cases h3 rfl
  | o1 :: o2 :: rest => rfl

/-- C5 witness: `2021-03-14 02:30` does not exist in `America/New_York`
(spring-forward gap), and parsing it there fails. -/
theorem C5_dst_gap_fold_is_failure_witness :
    normalizeShape ⟨2021, 3, 14⟩ (lowerStr "2021-03-14 02:30".data)
        = Exec.ok (some "2021-03-14 02:30".data) ∧
      parseFormat "2021-03-14 02:30".data = some ⟨2021, 3, 14, 2, 30⟩ ∧
      (offsetsAt Tz.newYork ⟨2021, 3, 14, 2, 30⟩).length ≠ 1 ∧
      parse_datetime_in_tz ⟨2021, 3, 14⟩ Tz.newYork "2021-03-14 02:30".data
        = Exec.ok none :=
  ⟨by decide, by decide, by decide,
   C5_dst_gap_fold_is_failure ⟨2021, 3, 14⟩ Tz.newYork
     "2021-03-14 02:30".data "2021-03-14 02:30".data ⟨2021, 3, 14, 2, 30⟩
     (by decide) (by decide) (by decide)⟩

/-- C1 as stated is false of the code: `parse_datetime_in_tz` has no
reference-instant parameter and reads the current date from the system
clock (`Local::now()`) inside the short-time and time-only branches.  With
the clock read reified as `today`, the same Rust-level arguments (timezone
and raw string) yield different results under different clock dates. -/
theorem C1_clock_dependence_counterexample :
    parse_datetime_in_tz ⟨2021, 7, 9⟩ Tz.kolkata "5pm".data ≠
      parse_datetime_in_tz ⟨2021, 7, 10⟩ Tz.kolkata "5pm".data := by decide

/-- C1 amended: the parser is deterministic in (raw string, clock date,
timezone) — it is a Lean function of exactly those — and the hidden clock
read only influences the short-time and time-only shapes: for every input
matching neither of those two patterns, the result is independent of the
clock date. -/
theorem C1_clock_independence_outside_clock_shapes (s : List Char)
    (t1 t2 : Date) (tz : Tz) (h1 : shortTimeCaps (lowerStr s) = none)
    (h2 : onlyTimeMatch (lowerStr s) = false) :
    parse_datetime_in_tz t1 tz s = parse_datetime_in_tz t2 tz s := by
  rw [parse_datetime_in_tz, parse_datetime_in_tz, normalizeShape, normalizeShape]
  by_cases hd : onlyDateMatch (lowerStr s)
  · rw [if_pos hd, if_pos hd]
  · rw [if_neg hd, if_neg hd, h1, h2]
    rfl

/-- C1 amended witness: a full `YYYY-MM-DD HH:MM` input parses identically
under two different clock dates. -/
theorem C1_clock_independence_witness :
    shortTimeCaps (lowerStr "2021-01-02 03:04".data) = none ∧
      onlyTimeMatch (lowerStr "2021-01-02 03:04".data) = false ∧
      parse_datetime_in_tz ⟨2021, 7, 9⟩ Tz.kolkata "2021-01-02 03:04".data
        = parse_datetime_in_tz ⟨1999, 1, 1⟩ Tz.kolkata "2021-01-02 03:04".data :=
  ⟨by decide, by decide,
   C1_clock_independence_outside_clock_shapes "2021-01-02 03:04".data
     ⟨2021, 7, 9⟩ ⟨1999, 1, 1⟩ Tz.kolkata (by decide) (by decide)⟩

/-! ## Lemmas for the short-time shape -/

/-- A short-time input assembled from its parts: hour digits, optional
`':'`-prefixed minute digits, optional single space, and the `am`/`pm`
suffix. -/
def mkShortInput (h : List Char) (mo : Option (List Char)) (sp pm : Bool) :
    List Char :=
  h ++ ((match mo with | some m => ':' :: m | none => []) ++
    ((if sp then [' '] else []) ++ (if pm then ['p', 'm'] else ['a', 'm'])))

lemma tailMatch_am : tailMatch ['a', 'm'] = some false := by decide
lemma tailMatch_pm : tailMatch ['p', 'm'] = some true := by decide
lemma tailMatch_sp_am : tailMatch [' ', 'a', 'm'] = some false := by decide
lemma tailMatch_sp_pm : tailMatch [' ', 'p', 'm'] = some true := by decide

lemma headNotDigit_colon (l : List Char) : headNotDigit (':' :: l) := by
  show isDigit ':' = false
  decide

lemma all_eq_true_mem {l : List Char} {p : Char → Bool} (h : l.all p = true) :
    ∀ c ∈ l, p c = true := by
  rw [List.all_eq_true] at h
  exact h

/-- The short-time regex captures on an assembled short-time input. -/
lemma shortTimeCaps_build (h : List Char) (mo : Option (List Char))
    (sp pm : Bool) (hne : h ≠ []) (hdig : h.all isDigit = true)
    (hmo : ∀ m, mo = some m → m ≠ [] ∧ m.all isDigit = true) :
    shortTimeCaps (mkShortInput h mo sp pm) = some ⟨h, mo, pm⟩ := by
  match h, hne with
  | h0 :: hs, _ =>
    cases mo with
    | none =>
      cases sp with
      | false =>
        cases pm with
        | false =>
          have hspan : spanDigits (mkShortInput (h0 :: hs) none false false)
              = (h0 :: hs, ['a', 'm']) :=
            spanDigits_append (h0 :: hs) ['a', 'm'] hdig
              (by decide : isDigit 'a' = false)
          rw [shortTimeCaps, hspan]
          rfl
        | true =>
          have hspan : spanDigits (mkShortInput (h0 :: hs) none false true)
              = (h0 :: hs, ['p', 'm']) :=
            spanDigits_append (h0 :: hs) ['p', 'm'] hdig
              (by decide : isDigit 'p' = false)
          rw [shortTimeCaps, hspan]
          rfl
      | true =>
        cases pm with
        | false =>
          have hspan : spanDigits (mkShortInput (h0 :: hs) none true false)
              = (h0 :: hs, [' ', 'a', 'm']) :=
            spanDigits_append (h0 :: hs) [' ', 'a', 'm'] hdig
              (by decide : isDigit ' ' = false)
          rw [shortTimeCaps, hspan]
          rfl
        | true =>
          have hspan : spanDigits (mkShortInput (h0 :: hs) none true true)
              = (h0 :: hs, [' ', 'p', 'm']) :=
            spanDigits_append (h0 :: hs) [' ', 'p', 'm'] hdig
              (by decide : isDigit ' ' = false)
          rw [shortTimeCaps, hspan]
          rfl
    | some m =>
      obtain ⟨hmne, hmdig⟩ := hmo m rfl
      match m, hmne with
      | m0 :: ms, _ =>
        cases sp with
        | false =>
          cases pm with
          | false =>
            have hspan : spanDigits
                (mkShortInput (h0 :: hs) (some (m0 :: ms)) false false)
                = (h0 :: hs, ':' :: ((m0 :: ms) ++ ['a', 'm'])) :=
              spanDigits_append (h0 :: hs) (':' :: ((m0 :: ms) ++ ['a', 'm']))
                hdig (headNotDigit_colon _)
            have hspan2 : spanDigits ((m0 :: ms) ++ ['a', 'm'])
                = (m0 :: ms, ['a', 'm']) :=
              spanDigits_append (m0 :: ms) ['a', 'm'] hmdig
                (by decide : isDigit 'a' = false)
            simp only [shortTimeCaps, hspan, hspan2, tailMatch_am,
              Option.map_some']
          | true =>
            have hspan : spanDigits
                (mkShortInput (h0 :: hs) (some (m0 :: ms)) false true)
                = (h0 :: hs, ':' :: ((m0 :: ms) ++ ['p', 'm'])) :=
              spanDigits_append (h0 :: hs) (':' :: ((m0 :: ms) ++ ['p', 'm']))
                hdig (headNotDigit_colon _)
            have hspan2 : spanDigits ((m0 :: ms) ++ ['p', 'm'])
                = (m0 :: ms, ['p', 'm']) :=
              spanDigits_append (m0 :: ms) ['p', 'm'] hmdig
                (by decide : isDigit 'p' = false)
            simp only [shortTimeCaps, hspan, hspan2, tailMatch_pm,
              Option.map_some']
        | true =>
          cases pm with
          | false =>
            have hspan : spanDigits
                (mkShortInput (h0 :: hs) (some (m0 :: ms)) true false)
                = (h0 :: hs, ':' :: ((m0 :: ms) ++ [' ', 'a', 'm'])) :=
              spanDigits_append (h0 :: hs)
                (':' :: ((m0 :: ms) ++ [' ', 'a', 'm'])) hdig
                (headNotDigit_colon _)
            have hspan2 : spanDigits ((m0 :: ms) ++ [' ', 'a', 'm'])
                = (m0 :: ms, [' ', 'a', 'm']) :=
              spanDigits_append (m0 :: ms) [' ', 'a', 'm'] hmdig
                (by decide : isDigit ' ' = false)
            simp only [shortTimeCaps, hspan, hspan2, tailMatch_sp_am,
              Option.map_some']
          | true =>
            have hspan : spanDigits
                (mkShortInput (h0 :: hs) (some (m0 :: ms)) true true)
                = (h0 :: hs, ':' :: ((m0 :: ms) ++ [' ', 'p', 'm'])) :=
              spanDigits_append (h0 :: hs)
                (':' :: ((m0 :: ms) ++ [' ', 'p', 'm'])) hdig
                (headNotDigit_colon _)
            have hspan2 : spanDigits ((m0 :: ms) ++ [' ', 'p', 'm'])
                = (m0 :: ms, [' ', 'p', 'm']) :=
              spanDigits_append (m0 :: ms) [' ', 'p', 'm'] hmdig
                (by decide : isDigit ' ' = false)
            simp only [shortTimeCaps, hspan, hspan2, tailMatch_sp_pm,
              Option.map_some']

lemma takeDigitsUpTo_exact_nil (ds : List Char) (k : Nat)
    (hall : ds.all isDigit = true) (hlen : ds.length = k) :
    takeDigitsUpTo k ds = (ds, []) := by
  have := takeDigitsUpTo_exact ds k [] hall hlen
  rwa [List.append_nil] at this

lemma natDigits_year_cons {y : Nat} (h1 : 1000 ≤ y) (h2 : y ≤ 9999) :
    ∃ c cs, natDigits y = c :: cs := by
  cases hnd : natDigits y with
  | nil =>
    have := natDigits_length4 h1 (by omega)
    rw [hnd] at this
    cases this
  | cons c cs => exact ⟨c, cs, rfl⟩

lemma natDigits_ne_nil (n : Nat) : natDigits n ≠ [] := by
  by_cases h : n < 10
  · rw [natDigits_small h]
    simp
  · rw [natDigits_step (by omega)]
    simp

lemma pad2_cons (n : Nat) : ∃ c cs, pad2 n = c :: cs := by
  rw [pad2]
  by_cases h : n < 10
  · exact ⟨'0', natDigits n, by rw [if_pos h]⟩
  · cases hnd : natDigits n with
    | nil => exact absurd hnd (natDigits_ne_nil n)
    | cons c cs => exact ⟨c, cs, by rw [if_neg h]⟩

/-- Parsing the rendered `"{}-{:02}-{:02} {:02}:{:02}"` string recovers its
fields, when they denote a valid calendar date and time and the year has
four digits. -/
lemma parseFormat_render (y mo d hh mi : Nat)
    (hy1 : 1000 ≤ y) (hy2 : y ≤ 9999) (hm1 : 1 ≤ mo) (hm2 : mo ≤ 12)
    (hd1 : 1 ≤ d) (hd2 : d ≤ daysInMonth y mo) (hhh : hh ≤ 23) (hmi : mi ≤ 59) :
    parseFormat (natDigits y ++ '-' :: (pad2 mo ++ '-' :: (pad2 d ++ ' ' ::
      (pad2 hh ++ ':' :: pad2 mi)))) = some ⟨y, mo, d, hh, mi⟩ := by
  have hdm : daysInMonth y mo ≤ 31 := by
    rw [daysInMonth]
    split_ifs <;> omega
  have hty := takeDigitsUpTo_exact (natDigits y) 4
    ('-' :: (pad2 mo ++ '-' :: (pad2 d ++ ' ' :: (pad2 hh ++ ':' :: pad2 mi))))
    (natDigits_all_digit y) (natDigits_length4 hy1 (by omega))
  have htm := takeDigitsUpTo_exact (pad2 mo) 2
    ('-' :: (pad2 d ++ ' ' :: (pad2 hh ++ ':' :: pad2 mi)))
    (pad2_all_digit mo) (pad2_length (by omega))
  have htd := takeDigitsUpTo_exact (pad2 d) 2
    (' ' :: (pad2 hh ++ ':' :: pad2 mi))
    (pad2_all_digit d) (pad2_length (by omega))
  have hth := takeDigitsUpTo_exact (pad2 hh) 2 (':' :: pad2 mi)
    (pad2_all_digit hh) (pad2_length (by omega))
  have hti := takeDigitsUpTo_exact_nil (pad2 mi) 2
    (pad2_all_digit mi) (pad2_length (by omega))
  obtain ⟨y0, ys, hy⟩ := natDigits_year_cons hy1 hy2
  obtain ⟨m0, ms, hm⟩ := pad2_cons mo
  obtain ⟨d0, ds, hd⟩ := pad2_cons d
  obtain ⟨h0, hs, hhc⟩ := pad2_cons hh
  obtain ⟨i0, is, hic⟩ := pad2_cons mi
  have hvy : digitsVal (y0 :: ys) = y := by rw [← hy, digitsVal_natDigits]
  have hvm : digitsVal (m0 :: ms) = mo := by rw [← hm, pad2_val]
  have hvd : digitsVal (d0 :: ds) = d := by rw [← hd, pad2_val]
  have hvh : digitsVal (h0 :: hs) = hh := by rw [← hhc, pad2_val]
  have hvi : digitsVal (i0 :: is) = mi := by rw [← hic, pad2_val]
  simp only [hy, hm, hd, hhc, hic] at hty htm htd hth hti ⊢
  simp only [parseFormat, hty, htm, htd, hth, hti, hvy, hvm, hvd, hvh, hvi]
  rw [if_pos ⟨hm1, hm2, hd1, hd2, hhh, hmi⟩]

/-- The minute value a short-time capture denotes: the digits after the
colon, or zero when absent. -/
def minuteVal (mo : Option (List Char)) : Nat :=
  match mo with
  | none => 0
  | some m => digitsVal m

/-- Evaluation of `parse_short_time` when neither numeric capture
overflows. -/
lemma parse_short_time_ok (today : Date) (hcap : List Char)
    (mo : Option (List Char)) (pm : Bool)
    (hb : digitsVal hcap + 12 ≤ usizeMax)
    (hmb : ∀ m, mo = some m → digitsVal m ≤ i32Max) :
    parse_short_time today ⟨hcap, mo, pm⟩ =
      Exec.ok (natDigits today.y ++ '-' :: (pad2 today.m ++ '-' ::
        (pad2 today.d ++ ' ' ::
          (pad2 (digitsVal hcap + if pm then 12 else 0) ++ ':' ::
            pad2 (minuteVal mo))))) := by
  cases mo with
  | none =>
    simp only [parse_short_time, minuteVal]
    rw [if_pos (show digitsVal hcap ≤ usizeMax by omega)]
    cases pm with
    | false => simp
    | true =>
      rw [Nat.mod_eq_of_lt (by omega)]
      simp
  | some m =>
    have hm := hmb m rfl
    simp only [parse_short_time, minuteVal]
    rw [if_pos hm]
    simp only []
    rw [if_pos (show digitsVal hcap ≤ usizeMax by omega)]
    cases pm with
    | false => simp
    | true =>
      rw [Nat.mod_eq_of_lt (by omega)]
      simp

lemma lowerStr_mkShortInput (h : List Char) (mo : Option (List Char))
    (sp pm : Bool) (hdig : h.all isDigit = true)
    (hmo : ∀ m, mo = some m → m.all isDigit = true) :
    lowerStr (mkShortInput h mo sp pm) = mkShortInput h mo sp pm := by
  apply lowerStr_eq_self
  intro c hc
  rw [mkShortInput.eq_def] at hc
  rcases List.mem_append.mp hc with hch | hc2
  · exact lowerChar_of_digit (all_eq_true_mem hdig c hch)
  rcases List.mem_append.mp hc2 with hcm | hc3
  · cases mo with
    | none => cases hcm
    | some m =>
      rcases List.mem_cons.mp hcm with hcolon | hcmm
      · rw [hcolon]
        decide
      · exact lowerChar_of_digit (all_eq_true_mem (hmo m rfl) c hcmm)
  rcases List.mem_append.mp hc3 with hcsp | hcampm
  · cases sp with
    | false => cases hcsp
    | true =>
      rcases List.mem_cons.mp hcsp with hcs | habs
      · rw [hcs]
        decide
      · cases habs
  · cases pm with
    | false =>
      rcases List.mem_cons.mp hcampm with hca | hcm2
      · rw [hca]
        decide
      · rcases List.mem_cons.mp hcm2 with hcm3 | habs
        · rw [hcm3]
          decide
        · cases habs
    | true =>
      rcases List.mem_cons.mp hcampm with hcp | hcm2
      · rw [hcp]
        decide
      · rcases List.mem_cons.mp hcm2 with hcm3 | habs
        · rw [hcm3]
          decide
        · cases habs

lemma onlyDateMatch_mkShortInput (h : List Char) (mo : Option (List Char))
    (sp pm : Bool) : onlyDateMatch (mkShortInput h mo sp pm) = false := by
  cases hx : onlyDateMatch (mkShortInput h mo sp pm) with
  | false => rfl
  | true =>
    have hmem : 'm' ∈ mkShortInput h mo sp pm := by
      rw [mkShortInput.eq_def]
      refine List.mem_append.mpr (Or.inr (List.mem_append.mpr (Or.inr
        (List.mem_append.mpr (Or.inr ?_)))))
      cases pm <;> decide
    rcases onlyDateMatch_chars hx 'm' hmem with hd | hd
    · cases hd
    · cases hd

lemma normalizeShape_short (today : Date) (dt : List Char) (caps : STCaps)
    (h1 : onlyDateMatch dt = false) (h2 : shortTimeCaps dt = some caps) :
    normalizeShape today dt =
      match parse_short_time today caps with
      | .crash => .crash
      | .ok s => .ok (some s) := by
  rw [normalizeShape, if_neg (by rw [h1]; exact Bool.false_ne_true), h2]

/-! ## Claim theorems: the short 12-hour time shape -/

/-- C3 as stated is false of the code: `"12pm"` has the shape
`H[H](am|pm)`, and the claimed hour `12 + 12 = 24` is not a wall-clock
hour — the parser returns the empty result for it instead of a
wall-clock time. -/
theorem C3_twelve_pm_counterexample :
    parse_datetime_in_tz ⟨2021, 7, 9⟩ Tz.kolkata "12pm".data
      = Exec.ok none := by decide

/-- C3 amended: for a short-time input `H[H][:MM](am|pm)` (optional single
space before the suffix) whose computed hour — the typed hour for `am`, the
typed hour plus twelve for `pm`, with no special-casing of 12am/12pm — is a
valid hour (at most 23), whose minutes (0 when omitted) are at most 59, and
whose wall-clock time on the clock date is realised by exactly one offset
`o` of the target zone, parsing yields exactly that wall-clock time on the
current clock date in the target zone. -/
theorem C3_short_time_amended (today : Date) (tz : Tz) (h : List Char)
    (mo : Option (List Char)) (sp pm : Bool) (o : Int)
    (hne : h ≠ []) (hdig : h.all isDigit = true) (hlen : h.length ≤ 2)
    (hmo : ∀ m, mo = some m → m ≠ [] ∧ m.all isDigit = true ∧ m.length = 2)
    (hty : 1000 ≤ today.y) (hty2 : today.y ≤ 9999)
    (htm1 : 1 ≤ today.m) (htm2 : today.m ≤ 12)
    (htd1 : 1 ≤ today.d) (htd2 : today.d ≤ daysInMonth today.y today.m)
    (hhv : digitsVal h + (if pm then 12 else 0) ≤ 23)
    (hmv : minuteVal mo ≤ 59)
    (hoff : offsetsAt tz ⟨today.y, today.m, today.d,
      digitsVal h + (if pm then 12 else 0), minuteVal mo⟩ = [o]) :
    parse_datetime_in_tz today tz (mkShortInput h mo sp pm)
      = Exec.ok (some ⟨toEpochSeconds ⟨today.y, today.m, today.d,
          digitsVal h + (if pm then 12 else 0), minuteVal mo⟩ - o, tz⟩) := by
  have hdv : digitsVal h ≤ 23 := by
    cases pm <;> simp at hhv <;> omega
  have hb : digitsVal h + 12 ≤ usizeMax := by
    show digitsVal h + 12 ≤ 18446744073709551615
    omega
  have hmb : ∀ m, mo = some m → digitsVal m ≤ i32Max := by
    intro m hm
    rw [hm] at hmv
    have h59 : digitsVal m ≤ 59 := hmv
    show digitsVal m ≤ 2147483647
    omega
  have hcaps := shortTimeCaps_build h mo sp pm hne hdig
    (fun m hm => ⟨(hmo m hm).1, (hmo m hm).2.1⟩)
  have hod := onlyDateMatch_mkShortInput h mo sp pm
  have hlower := lowerStr_mkShortInput h mo sp pm hdig
    (fun m hm => (hmo m hm).2.1)
  have hnorm : normalizeShape today (mkShortInput h mo sp pm) =
      Exec.ok (some (natDigits today.y ++ '-' :: (pad2 today.m ++ '-' ::
        (pad2 today.d ++ ' ' ::
          (pad2 (digitsVal h + if pm then 12 else 0) ++ ':' ::
            pad2 (minuteVal mo)))))) := by
    rw [normalizeShape_short today _ _ hod hcaps,
      parse_short_time_ok today h mo pm hb hmb]
  have hpf := parseFormat_render today.y today.m today.d
    (digitsVal h + if pm then 12 else 0) (minuteVal mo)
    hty hty2 htm1 htm2 htd1 htd2 hhv hmv
  rw [parse_datetime_in_tz, hlower, hnorm]
  simp only [datetime_from_str, hpf, hoff]

/-- C3 amended witness: `parse("5:30pm", Kolkata, clock date 2021-07-09)`
is 2021-07-09 17:30 in Kolkata. -/
theorem C3_short_time_amended_witness :
    mkShortInput ['5'] (some ['3', '0']) false true = "5:30pm".data ∧
      parse_datetime_in_tz ⟨2021, 7, 9⟩ Tz.kolkata
        (mkShortInput ['5'] (some ['3', '0']) false true)
        = Exec.ok (some ⟨toEpochSeconds ⟨2021, 7, 9, 17, 30⟩ - 19800,
            Tz.kolkata⟩) :=
  ⟨by decide,
   C3_short_time_amended ⟨2021, 7, 9⟩ Tz.kolkata ['5'] (some ['3', '0'])
     false true 19800 (by decide) (by decide) (by decide)
     (fun m hm => by
       rw [Option.some_inj] at hm
       subst hm
       exact ⟨by decide, by decide, by decide⟩)
     (by decide) (by decide) (by decide) (by decide) (by decide) (by decide)
     (by decide) (by decide) (by decide)⟩

/-- C10: the accepted short-time shape is strictly wider than
`H[H][:MM] (am|pm)`: an hour field of any positive number of digits is
matched (and routed to the short-time branch), a single-digit minute field
is matched, and `"5:7pm"` parses to 17:07 on the clock date. -/
theorem C10_short_time_shape_wider :
    (∀ h : List Char, h ≠ [] → h.all isDigit = true →
       shortTimeCaps (h ++ ['p', 'm']) = some ⟨h, none, true⟩) ∧
    (∀ (h : List Char) (d : Char), h ≠ [] → h.all isDigit = true →
       isDigit d = true →
       shortTimeCaps (h ++ ':' :: d :: ['p', 'm']) = some ⟨h, some [d], true⟩) ∧
    parse_datetime_in_tz ⟨2021, 7, 9⟩ Tz.kolkata "5:7pm".data
      = Exec.ok (some ⟨toEpochSeconds ⟨2021, 7, 9, 17, 7⟩ - 19800,
          Tz.kolkata⟩) := by
  refine ⟨?_, ?_, by decide⟩
  · intro h hne hdig
    exact shortTimeCaps_build h none false true hne hdig (fun m hm => by cases hm)
  · intro h d hne hdig hd
    exact shortTimeCaps_build h (some [d]) false true hne hdig
      (fun m hm => by
        rw [Option.some_inj] at hm
        subst hm
        exact ⟨by simp, by simp [hd]⟩)

/-- C10 witness: a three-digit hour and a one-digit minute are both matched
by the short-time pattern. -/
theorem C10_short_time_shape_wider_witness :
    shortTimeCaps "123pm".data = some ⟨['1', '2', '3'], none, true⟩ ∧
      shortTimeCaps "5:7pm".data = some ⟨['5'], some ['7'], true⟩ :=
  ⟨C10_short_time_shape_wider.1 ['1', '2', '3'] (by decide) (by decide),
   C10_short_time_shape_wider.2.1 ['5'] '7' (by decide) (by decide) (by decide)⟩
